import Mathlib

/-!
# Verification of `zotero_cleaner.py`

A shallow embedding of the core reconciliation logic of the Zotero storage
cleaner, together with proofs of the specified properties.

Modelling conventions:
* A filesystem path is a list of path components (`List String`);
  `os.path.dirname` drops the last component, `os.path.basename` takes the
  last component.
* The scanner output `pdf_files` (a list of `(full_path, filename)` pairs)
  is a `List OnDiskFile`.
* The Zotero database is an association list from filename to the list of
  attachment records (`db_files` in the source), built by
  `getDatabasePdfs` from the raw attachment rows.
* `shutil.move` may fail per file; the failure pattern of a batch is an
  oracle `moveOk : OnDiskFile → Bool` (the source catches the exception,
  reports, and continues with the next file).
* The interactive confirmation prompt is a boolean parameter `confirm`.
* The backup directory is fixed for a whole run, so `os.path.exists` on a
  joined destination path is modelled as membership of the destination
  *filename* in the list of names already present in the backup directory.
-/

namespace ZoteroCleaner

/-! ## On-disk PDF files (`collect_pdf_files` output shape) -/

/-- One entry of the `pdf_files` list built by `collect_pdf_files`:
the full path (as components) and the filename that was paired with it. -/
structure OnDiskFile where
  path : List String
  filename : String
deriving DecidableEq, Repr

/-- `os.path.basename(os.path.dirname(full_path))`: the name of the
immediate parent directory of the file. -/
def folderOf (f : OnDiskFile) : String :=
  f.path.dropLast.getLastD ""

/-- `os.path.basename(full_path)`: the last path component. -/
def baseOf (f : OnDiskFile) : String :=
  f.path.getLastD ""

/-! ## Database index (`get_database_pdfs`) -/

/-- One row of the attachment query.  `path` is `none` when the stored
value is not a string (the source guards with `isinstance(path, str)`). -/
structure AttachmentRow where
  itemID : Int
  parentItemID : Option Int
  path : Option String
  itemKey : String
deriving DecidableEq, Repr

/-- One record of the `db_files` map. -/
structure DbRec where
  folder : String
  itemKey : String
  dbPath : String
  itemID : Int
deriving DecidableEq, Repr

/-- `':' in path`: character membership in a string. -/
def containsChar (s : String) (c : Char) : Bool :=
  s.data.any (fun x => x == c)

/-- `path.split(':', 1)[1]`: everything after the first `:`. -/
def afterFirstColon (p : String) : String :=
  String.intercalate ":" ((p.splitOn ":").drop 1)

/-- Appending a record to the entry of `filename` in the `db_files`
association list (`db_files[filename].append(...)` with defaulting). -/
def addRec (m : List (String × List DbRec)) (fn : String) (r : DbRec) :
    List (String × List DbRec) :=
  match m with
  | [] => [(fn, [r])]
  | (k, rs) :: rest =>
    if k = fn then (k, rs ++ [r]) :: rest else (k, rs) :: addRec rest fn r

/-- The records stored under a filename (`db_files[filename]`, empty when
the key is absent). -/
def recsFor (m : List (String × List DbRec)) (fn : String) : List DbRec :=
  (List.lookup fn m).getD []

/-- The body of the row loop of `get_database_pdfs`: parse one row and
accumulate into the `(db_files, db_folders)` state.  A row whose path is
not a string or contains no `:` leaves the state unchanged. -/
def dbStep (acc : List (String × List DbRec) × List String) (row : AttachmentRow) :
    List (String × List DbRec) × List String :=
  match row.path with
  | none => acc
  | some p =>
    if containsChar p ':' then
      let parts := afterFirstColon p
      let fi :=
        if containsChar parts '/' || containsChar parts '\\' then
          let segs := (parts.replace "\\" "/").splitOn "/"
          (segs.headD "", segs.getLastD "")
        else
          (row.itemKey, parts)
      (addRec acc.1 fi.2 ⟨fi.1, row.itemKey, p, row.itemID⟩, acc.2 ++ [fi.1])
    else acc

/-- `get_database_pdfs`: fold the row loop over all attachment rows,
returning the `db_files` map and the `db_folders` valid-folder list
(the source uses a set; only membership is ever consumed). -/
def getDatabasePdfs (rows : List AttachmentRow) :
    List (String × List DbRec) × List String :=
  rows.foldl dbStep ([], [])

/-- Spec-side restatement of the per-row parsing rule, used to state the
correctness of `getDatabasePdfs`: split the stored path at the first `:`;
if the remainder contains a path separator the first segment is the
folder and the last segment the filename, otherwise the folder is the
item key and the filename the whole remainder; other rows are skipped. -/
def specIdentity (row : AttachmentRow) : Option (String × String) :=
  match row.path with
  | none => none
  | some p =>
    if containsChar p ':' then
      let parts := afterFirstColon p
      if containsChar parts '/' || containsChar parts '\\' then
        let segs := (parts.replace "\\" "/").splitOn "/"
        some (segs.headD "", segs.getLastD "")
      else
        some (row.itemKey, parts)
    else none

/-- The `(filename, record)` pair a row contributes to the index, per the
spec-side rule of `specIdentity`. -/
def specRec (row : AttachmentRow) : Option (String × DbRec) :=
  match row.path with
  | none => none
  | some p =>
    match specIdentity row with
    | none => none
    | some (folder, fn) => some (fn, ⟨folder, row.itemKey, p, row.itemID⟩)

/-! ## Duplicate resolver (`clean_duplicate_pdfs`) -/

/-- The group of scanned files sharing a filename
(`pdf_by_name[name]`). -/
def groupOf (pdfs : List OnDiskFile) (name : String) : List OnDiskFile :=
  pdfs.filter (fun f => f.filename == name)

/-- First-occurrence deduplication with an accumulator of already-seen
names: the key insertion order of a Python dict built by appending. -/
def dedupFirstAux (seen : List String) : List String → List String
  | [] => []
  | x :: xs =>
    if x ∈ seen then dedupFirstAux seen xs
    else x :: dedupFirstAux (x :: seen) xs

/-- The distinct filenames of the scan, in first-occurrence order. -/
def scanNames (pdfs : List OnDiskFile) : List String :=
  dedupFirstAux [] (pdfs.map (·.filename))

/-- The keys of the `duplicates` dict: filenames with more than one
on-disk copy. -/
def dupNames (pdfs : List OnDiskFile) : List String :=
  (scanNames pdfs).filter (fun n => 1 < (groupOf pdfs n).length)

/-- The `files_to_delete` list of `clean_duplicate_pdfs`: for each
duplicated filename, if the filename is a key of `db_files` the copies
whose folder is not among the recorded folders, otherwise the whole
group. -/
def filesToDelete (pdfs : List OnDiskFile)
    (db : List (String × List DbRec)) : List OnDiskFile :=
  (dupNames pdfs).flatMap (fun name =>
    match List.lookup name db with
    | some recs =>
      (groupOf pdfs name).filter
        (fun f => !((recs.map (·.folder)).contains (folderOf f)))
    | none => groupOf pdfs name)

/-- The relocation loop shared by both resolvers: attempt to move each
file; a failed move is reported and skipped, a successful move is
counted.  Returns the success count and the list of files actually
moved. -/
def moveLoop (moveOk : OnDiskFile → Bool) : List OnDiskFile → Nat × List OnDiskFile
  | [] => (0, [])
  | f :: fs =>
    let r := moveLoop moveOk fs
    if moveOk f then (r.1 + 1, f :: r.2) else r

/-- `clean_duplicate_pdfs`: returns the count of successfully relocated
files and (as ghost data for the frame theorems) the list of files
moved.  Mirrors the early returns of the source: no duplicate groups,
an empty `files_to_delete`, and a declined confirmation all return 0
without moving anything. -/
def cleanDuplicatePdfs (pdfs : List OnDiskFile) (db : List (String × List DbRec))
    (confirm : Bool) (moveOk : OnDiskFile → Bool) : Nat × List OnDiskFile :=
  if (dupNames pdfs).isEmpty then (0, [])
  else if (filesToDelete pdfs db).isEmpty then (0, [])
  else if confirm then moveLoop moveOk (filesToDelete pdfs db)
  else (0, [])

/-! ## Orphan resolver (`clean_orphaned_pdfs`) -/

/-- The keys of the `orphaned` dict: scanned filenames absent from
`db_files`. -/
def orphanNames (pdfs : List OnDiskFile) (db : List (String × List DbRec)) :
    List String :=
  (scanNames pdfs).filter (fun n => (List.lookup n db).isNone)

/-- The flattened `orphaned_files` list, in dict insertion order. -/
def orphanedFiles (pdfs : List OnDiskFile) (db : List (String × List DbRec)) :
    List OnDiskFile :=
  (orphanNames pdfs db).flatMap (groupOf pdfs)

/-- `clean_orphaned_pdfs`: same return contract as the duplicate
resolver. -/
def cleanOrphanedPdfs (pdfs : List OnDiskFile) (db : List (String × List DbRec))
    (confirm : Bool) (moveOk : OnDiskFile → Bool) : Nat × List OnDiskFile :=
  if (orphanNames pdfs db).isEmpty then (0, [])
  else if confirm then moveLoop moveOk (orphanedFiles pdfs db)
  else (0, [])

/-! ## Collision-safe backup naming -/

/-- Destination name for a relocated duplicate
(`f"dup_{folder}_{filename}"`, both recomputed from the full path in the
move loop of `clean_duplicate_pdfs`). -/
def dupDestName (f : OnDiskFile) : String :=
  "dup_" ++ folderOf f ++ "_" ++ baseOf f

/-- Destination name for a relocated orphan
(`f"orphan_{folder}_{filename}"` in `clean_orphaned_pdfs`). -/
def orphanDestName (f : OnDiskFile) : String :=
  "orphan_" ++ folderOf f ++ "_" ++ f.filename

/-- Helper for `splitext`, working on the reversed character list: find
the last `.` of the name, valid only if some non-`.` character precedes
it, and return `(reversed extension, reversed base)`. -/
def splitextCore : List Char → Option (List Char × List Char)
  | [] => none
  | c :: rest =>
    if c = '.' then
      if rest.any (fun x => x != '.') then some ([c], rest) else none
    else
      match splitextCore rest with
      | some (e, b) => some (c :: e, b)
      | none => none

/-- `os.path.splitext` on a bare filename (no separators): split at the
last dot, unless every character before it is also a dot. -/
def splitext (s : String) : String × String :=
  match splitextCore s.data.reverse with
  | some (e, b) => (⟨b.reverse⟩, ⟨e.reverse⟩)
  | none => (s, "")

/-- The `counter`-th collision candidate
(`f"{base}_{counter}{ext}"` with `base, ext = os.path.splitext(dest_filename)`). -/
def nextName (dest : String) (k : Nat) : String :=
  (splitext dest).1 ++ "_" ++ Nat.repr k ++ (splitext dest).2

/-- The collision loop: starting from counter `k`, return the first
candidate name not present in the backup directory.  `fuel` bounds the
search; `findDest` supplies enough fuel for the loop to terminate at an
unused name. -/
def findDestAux (existing : List String) (dest : String) : Nat → Nat → String
  | 0, k => nextName dest k
  | fuel + 1, k =>
    if nextName dest k ∈ existing then findDestAux existing dest fuel (k + 1)
    else nextName dest k

/-- The destination-name computation of both move loops: the constructed
name itself when unused, otherwise the first free numeric-suffix
candidate `_1, _2, …`. -/
def findDest (existing : List String) (dest : String) : String :=
  if dest ∈ existing then findDestAux existing dest (existing.length + 1) 1
  else dest

/-- Decimal digit list of a natural number, most significant first: a
structurally transparent restatement of `Nat.toDigits 10`, used to prove
`Nat.repr` injective (so distinct counters give distinct candidates). -/
def decChars (n : Nat) : List Char :=
  if n < 10 then [Nat.digitChar n]
  else decChars (n / 10) ++ [Nat.digitChar (n % 10)]
termination_by n
decreasing_by exact Nat.div_lt_self (by omega) (by omega)

/-- Numeric value of a decimal digit character. -/
def dval (c : Char) : Nat := c.toNat - '0'.toNat

/-- Decimal evaluation of a digit character list. -/
def evalD (l : List Char) : Nat := l.foldl (fun a c => a * 10 + dval c) 0

/-! ## Filesystem trees and the folder pruner (`clean_empty_folders`) -/

mutual
/-- A filesystem entry under the storage root: a plain file, or a
directory with its name, entries, and a readability flag (`false` models
a directory whose listing raises `OSError`/`PermissionError`). -/
inductive FsTree : Type where
  | file : String → FsTree
  | dir : String → EntryList → Bool → FsTree
/-- The entries of a directory. -/
inductive EntryList : Type where
  | nil : EntryList
  | cons : FsTree → EntryList → EntryList
end

/-- Name of an entry as it appears in a directory listing. -/
def entryName : FsTree → String
  | .file n => n
  | .dir n _ _ => n

/-- The fixed artifact names ignored by the emptiness check. -/
def isArtifact (n : String) : Bool :=
  n == ".DS_Store" || n == "Thumbs.db" || n == "desktop.ini" || n == ".zotero-ft-cache"

/-- Number of directory entries left after filtering out artifact names
(the length of the filtered `os.listdir` result). -/
def listNonArtifact : EntryList → Nat
  | .nil => 0
  | .cons t ts => (if isArtifact (entryName t) then 0 else 1) + listNonArtifact ts

/-- `is_folder_empty`: the filtered listing is empty; a listing failure
(`readable = false`) reports non-empty. -/
def isFolderEmpty : FsTree → Bool
  | .file _ => false
  | .dir _ es r => r && listNonArtifact es == 0

/-- Whether the entry list is literally empty (what `os.rmdir` actually
requires in order to succeed). -/
def isNilE : EntryList → Bool
  | .nil => true
  | .cons _ _ => false

/-- `file.lower().endswith('.pdf')`. -/
def isPdfName (s : String) : Bool :=
  let l := s.data.map Char.toLower
  l.drop (l.length - 4) == ['.', 'p', 'd', 'f']

mutual
/-- `os.walk` under an entry, collecting all file names; an unreadable
directory anywhere raises (`Except.error`). -/
def walkFiles : FsTree → Except Unit (List String)
  | .file n => .ok [n]
  | .dir _ es r => if r then walkEntries es else .error ()
/-- `os.walk` over a list of entries. -/
def walkEntries : EntryList → Except Unit (List String)
  | .nil => .ok []
  | .cons t ts =>
    match walkFiles t, walkEntries ts with
    | .ok a, .ok b => .ok (a ++ b)
    | _, _ => .error ()
end

/-- `has_pdf_files`: any walked file name is a PDF; a raised walk error
reports `True`. -/
def hasPdfFiles (t : FsTree) : Bool :=
  match walkFiles t with
  | .error _ => true
  | .ok fs => fs.any isPdfName

mutual
/-- Semantic PDF containment: some file ending in `.pdf`
(case-insensitively) exists anywhere in the subtree, regardless of
readability. -/
def subtreeHasPdf : FsTree → Bool
  | .file n => isPdfName n
  | .dir _ es _ => entriesHavePdf es
/-- Semantic PDF containment for an entry list. -/
def entriesHavePdf : EntryList → Bool
  | .nil => false
  | .cons t ts => subtreeHasPdf t || entriesHavePdf ts
end

/-- Prepend an optional entry. -/
def consOpt : Option FsTree → EntryList → EntryList
  | none, ts => ts
  | some t, ts => .cons t ts

mutual
/-- Total number of nodes in a tree. -/
def sizeT : FsTree → Nat
  | .file _ => 1
  | .dir _ es _ => 1 + sizeE es
/-- Total number of nodes in an entry list. -/
def sizeE : EntryList → Nat
  | .nil => 0
  | .cons t ts => sizeT t + sizeE ts
end

mutual
/-- One traversal pass of `clean_empty_folders` applied to a single
entry, children first (`os.walk(..., topdown=False)` visits every
descendant folder before its parent, and each check reads the live
state).  Returns the surviving entry (`none` if deleted), whether any
folder of the subtree was deleted, and the empty/invalid deletion
counts.
* The empty branch uses `os.rmdir`, which only succeeds on a literally
  empty directory; on an artifact-only folder it raises, the exception
  is caught by the per-folder handler, and the folder survives.
* The invalid branch (`delete_folder_safe` / `shutil.rmtree`) is only
  reachable when `has_pdf_files` returned `false`, i.e. the walk of the
  subtree succeeded, so the removal is modelled as succeeding.
* An unreadable directory is still listed by its parent and checked,
  but its own contents are not visited by the walk. -/
def pruneEntry (valid : List String) : FsTree → Option FsTree × Bool × Nat × Nat
  | .file n => (some (.file n), false, 0, 0)
  | .dir n es r =>
    match (if r then pruneEntries valid es else (es, false, 0, 0)) with
    | (es', d, ec, ic) =>
      if isFolderEmpty (.dir n es' r) then
        if isNilE es' then (none, true, ec + 1, ic)
        else (some (.dir n es' r), d, ec, ic)
      else if !(hasPdfFiles (.dir n es' r)) && !(valid.contains n) then
        (none, true, ec, ic + 1)
      else (some (.dir n es' r), d, ec, ic)
/-- One traversal pass over a list of sibling entries. -/
def pruneEntries (valid : List String) : EntryList → EntryList × Bool × Nat × Nat
  | .nil => (.nil, false, 0, 0)
  | .cons t ts =>
    match pruneEntry valid t, pruneEntries valid ts with
    | (o, d1, e1, i1), (ts', d2, e2, i2) =>
      (consOpt o ts', d1 || d2, e1 + e2, i1 + i2)
end

/-- Size of an optional surviving entry. -/
def sizeO : Option FsTree → Nat
  | none => 0
  | some t => sizeT t

/-- The `while deleted:` loop of `clean_empty_folders`: repeat full
passes until one deletes nothing.  `fuel` bounds the iteration count;
`cleanEmptyFolders` supplies enough for the loop to reach its fixed
point. -/
def cleanLoop (valid : List String) : Nat → EntryList → EntryList × Nat × Nat
  | 0, es => (es, 0, 0)
  | fuel + 1, es =>
    let p := pruneEntries valid es
    if p.2.1 then
      let rest := cleanLoop valid fuel p.1
      (rest.1, p.2.2.1 + rest.2.1, p.2.2.2 + rest.2.2)
    else (es, p.2.2.1, p.2.2.2)

/-- `clean_empty_folders` on the entries of the storage root (the root
itself is excluded from the checks): the final state and the
empty/invalid deletion counts. -/
def cleanEmptyFolders (valid : List String) (es : EntryList) : EntryList × Nat × Nat :=
  cleanLoop valid (sizeE es + 1) es

/-! ## Concrete fixtures (spec scenarios), used by the witnesses -/

/-- `AB12CD/a.pdf`: the copy whose folder the database records. -/
def fileAB : OnDiskFile := ⟨["st", "AB12CD", "a.pdf"], "a.pdf"⟩

/-- `XY99ZZ/a.pdf`: the duplicate copy in an unrecorded folder. -/
def fileXY : OnDiskFile := ⟨["st", "XY99ZZ", "a.pdf"], "a.pdf"⟩

/-- `QQ11WW/solo.pdf`: a filename with a single on-disk copy. -/
def fileSolo : OnDiskFile := ⟨["st", "QQ11WW", "solo.pdf"], "solo.pdf"⟩

/-- Scan result of the duplicate scenario. -/
def pdfsSample : List OnDiskFile := [fileAB, fileXY]

/-- Database index recording `a.pdf` under folder `AB12CD`. -/
def dbSample : List (String × List DbRec) :=
  [("a.pdf", [⟨"AB12CD", "AB12CD", "storage:AB12CD/a.pdf", 1⟩])]

/-! ## Supporting lemmas: the duplicate/orphan resolvers -/

theorem mem_dedupFirstAux (l : List String) :
    ∀ (seen : List String) (y : String),
      y ∈ dedupFirstAux seen l ↔ y ∈ l ∧ y ∉ seen := by
  induction l with
  | nil => intro seen y; simp [dedupFirstAux]
  | cons x xs ih =>
    intro seen y
    by_cases hx : x ∈ seen
    · rw [dedupFirstAux, if_pos hx, ih]
      constructor
      · rintro ⟨h1, h2⟩; exact ⟨List.mem_cons_of_mem _ h1, h2⟩
      · rintro ⟨h1, h2⟩
        rcases List.mem_cons.mp h1 with rfl | h1
        · exact absurd hx h2
        · exact ⟨h1, h2⟩
    · rw [dedupFirstAux, if_neg hx]
      constructor
      · intro h
        rcases List.mem_cons.mp h with rfl | h
        · exact ⟨List.mem_cons_self _ _, hx⟩
        · obtain ⟨h1, h2⟩ := (ih _ _).mp h
          exact ⟨List.mem_cons_of_mem _ h1,
            fun hc => h2 (List.mem_cons_of_mem _ hc)⟩
      · rintro ⟨hmem, hns⟩
        rcases List.mem_cons.mp hmem with rfl | h1
        · exact List.mem_cons_self _ _
        · by_cases hyx : y = x
          · subst hyx; exact List.mem_cons_self _ _
          · refine List.mem_cons_of_mem _ ((ih _ _).mpr ⟨h1, fun hc => ?_⟩)
            rcases List.mem_cons.mp hc with h | h
            · exact hyx h
            · exact hns h

theorem mem_scanNames (pdfs : List OnDiskFile) (y : String) :
    y ∈ scanNames pdfs ↔ ∃ f ∈ pdfs, f.filename = y := by
  simp [scanNames, mem_dedupFirstAux, eq_comm]

theorem mem_groupOf (pdfs : List OnDiskFile) (n : String) (f : OnDiskFile) :
    f ∈ groupOf pdfs n ↔ f ∈ pdfs ∧ f.filename = n := by
  simp [groupOf]

theorem groupOf_filter (pdfs : List OnDiskFile) (p : OnDiskFile → Bool) (n : String) :
    groupOf (pdfs.filter p) n = (groupOf pdfs n).filter p := by
  simp only [groupOf, List.filter_filter]
  exact List.filter_congr (fun f _ => Bool.and_comm _ _)

/-- Membership characterisation of `files_to_delete`: a scanned file is
marked for removal iff its filename has more than one copy and, whenever
the filename is a key of the index, its folder is not among the recorded
folders. -/
theorem mem_filesToDelete (pdfs : List OnDiskFile)
    (db : List (String × List DbRec)) (f : OnDiskFile) :
    f ∈ filesToDelete pdfs db ↔
      f ∈ pdfs ∧ 1 < (groupOf pdfs f.filename).length ∧
        ∀ recs, List.lookup f.filename db = some recs →
          folderOf f ∉ recs.map (·.folder) := by
  unfold filesToDelete
  rw [List.mem_flatMap]
  constructor
  · rintro ⟨name, hname, hbr⟩
    have hnd : name ∈ scanNames pdfs ∧ 1 < (groupOf pdfs name).length := by
      have := List.mem_filter.mp hname
      exact ⟨this.1, by simpa using this.2⟩
    have hfn : f.filename = name := by
      rcases hlook : List.lookup name db with _ | recs <;> rw [hlook] at hbr
      · exact ((mem_groupOf ..).mp hbr).2
      · exact ((mem_groupOf ..).mp (List.mem_filter.mp hbr).1).2
    subst hfn
    rcases hlook : List.lookup f.filename db with _ | recs <;> rw [hlook] at hbr
    · exact ⟨((mem_groupOf ..).mp hbr).1, hnd.2, fun recs h => nomatch h⟩
    · obtain ⟨hg, hc⟩ := List.mem_filter.mp hbr
      refine ⟨((mem_groupOf ..).mp hg).1, hnd.2, fun recs' h => ?_⟩
      injection h with h; subst h
      intro hmem
      simp only [Bool.not_eq_eq_eq_not, Bool.not_true, List.contains,
        List.elem_eq_true_of_mem hmem] at hc
      exact Bool.noConfusion hc
  · rintro ⟨hf, hlen, hrec⟩
    refine ⟨f.filename, List.mem_filter.mpr
      ⟨(mem_scanNames ..).mpr ⟨f, hf, rfl⟩, by simpa using hlen⟩, ?_⟩
    rcases hlook : List.lookup f.filename db with _ | recs
    · exact (mem_groupOf ..).mpr ⟨hf, rfl⟩
    · refine List.mem_filter.mpr ⟨(mem_groupOf ..).mpr ⟨hf, rfl⟩, ?_⟩
      have hnm := hrec recs hlook
      simp only [Bool.not_eq_eq_eq_not, Bool.not_true, List.contains]
      rw [← Bool.not_eq_true]
      intro hc
      exact hnm (List.mem_of_elem_eq_true hc)

theorem moveLoop_eq (moveOk : OnDiskFile → Bool) (l : List OnDiskFile) :
    moveLoop moveOk l = ((l.filter moveOk).length, l.filter moveOk) := by
  induction l with
  | nil => rfl
  | cons f fs ih =>
    rcases hm : moveOk f <;> simp [moveLoop, List.filter, hm, ih]

theorem filesToDelete_of_dupNames_nil (pdfs : List OnDiskFile)
    (db : List (String × List DbRec)) (h : dupNames pdfs = []) :
    filesToDelete pdfs db = [] := by
  unfold filesToDelete; rw [h]; rfl

/-- The files a resolver run actually moves. -/
theorem snd_cleanDuplicatePdfs (pdfs : List OnDiskFile)
    (db : List (String × List DbRec)) (confirm : Bool) (moveOk : OnDiskFile → Bool) :
    (cleanDuplicatePdfs pdfs db confirm moveOk).2
      = if confirm then (filesToDelete pdfs db).filter moveOk else [] := by
  unfold cleanDuplicatePdfs
  rcases h1 : (dupNames pdfs).isEmpty
  · rcases h2 : (filesToDelete pdfs db).isEmpty
    · rcases confirm <;> simp [moveLoop_eq]
    · rcases confirm <;> simp [List.isEmpty_iff.mp h2]
  · rcases confirm <;>
      simp [filesToDelete_of_dupNames_nil pdfs db (List.isEmpty_iff.mp h1)]

theorem fst_cleanDuplicatePdfs (pdfs : List OnDiskFile)
    (db : List (String × List DbRec)) (confirm : Bool) (moveOk : OnDiskFile → Bool) :
    (cleanDuplicatePdfs pdfs db confirm moveOk).1
      = (cleanDuplicatePdfs pdfs db confirm moveOk).2.length := by
  unfold cleanDuplicatePdfs
  rcases h1 : (dupNames pdfs).isEmpty
  · rcases h2 : (filesToDelete pdfs db).isEmpty
    · rcases confirm <;> simp [moveLoop_eq]
    · rcases confirm <;> simp
  · rcases confirm <;> simp

theorem snd_cleanOrphanedPdfs (pdfs : List OnDiskFile)
    (db : List (String × List DbRec)) (confirm : Bool) (moveOk : OnDiskFile → Bool) :
    (cleanOrphanedPdfs pdfs db confirm moveOk).2
      = if confirm then (orphanedFiles pdfs db).filter moveOk else [] := by
  unfold cleanOrphanedPdfs
  rcases h1 : (orphanNames pdfs db).isEmpty
  · rcases confirm <;> simp [moveLoop_eq]
  · rcases confirm <;>
      simp [orphanedFiles, List.isEmpty_iff.mp h1]

theorem fst_cleanOrphanedPdfs (pdfs : List OnDiskFile)
    (db : List (String × List DbRec)) (confirm : Bool) (moveOk : OnDiskFile → Bool) :
    (cleanOrphanedPdfs pdfs db confirm moveOk).1
      = (cleanOrphanedPdfs pdfs db confirm moveOk).2.length := by
  unfold cleanOrphanedPdfs
  rcases h1 : (orphanNames pdfs db).isEmpty
  · rcases confirm <;> simp [moveLoop_eq]
  · rcases confirm <;> simp

/-! ## Claim C1 -/

/-- C1.  Duplicate resolution rule: for a filename with more than one
on-disk copy, a copy is marked for removal iff it is not the case that
the filename is a key of the Database Index with the copy's folder among
the recorded folders — so for an indexed filename a copy is kept iff its
folder is recorded, and for an unindexed filename every copy is marked
for removal; surviving copies have recorded folders, removed copies do
not. -/
theorem c1_duplicate_resolution_rule (pdfs : List OnDiskFile)
    (db : List (String × List DbRec)) (f : OnDiskFile) (hf : f ∈ pdfs)
    (hdup : 1 < (groupOf pdfs f.filename).length) :
    f ∈ filesToDelete pdfs db ↔
      ¬ ∃ recs, List.lookup f.filename db = some recs ∧
          folderOf f ∈ recs.map (·.folder) := by
  rw [mem_filesToDelete]
  constructor
  · rintro ⟨-, -, h⟩ ⟨recs, heq, hmem⟩
    exact h recs heq hmem
  · intro h
    exact ⟨hf, hdup, fun recs heq hmem => h ⟨recs, heq, hmem⟩⟩

theorem c1_duplicate_resolution_rule_witness :
    fileXY ∈ pdfsSample ∧
    1 < (groupOf pdfsSample fileXY.filename).length ∧
    (fileXY ∈ filesToDelete pdfsSample dbSample ↔
      ¬ ∃ recs, List.lookup fileXY.filename dbSample = some recs ∧
          folderOf fileXY ∈ recs.map (·.folder)) :=
  ⟨by decide, by decide,
    c1_duplicate_resolution_rule pdfsSample dbSample fileXY (by decide) (by decide)⟩

/-! ## Claim C6 -/

/-- C6.  Resolver return contract: both resolvers return exactly the
number of files successfully relocated; a per-file relocation failure is
skipped and not counted while the rest of the batch proceeds (the moved
files are exactly the marked files the move oracle lets through); and a
declined confirmation moves nothing and returns 0. -/
theorem c6_resolver_return_contract (pdfs : List OnDiskFile)
    (db : List (String × List DbRec)) (confirm : Bool) (moveOk : OnDiskFile → Bool) :
    cleanDuplicatePdfs pdfs db false moveOk = (0, []) ∧
    cleanOrphanedPdfs pdfs db false moveOk = (0, []) ∧
    (cleanDuplicatePdfs pdfs db confirm moveOk).1
      = (cleanDuplicatePdfs pdfs db confirm moveOk).2.length ∧
    (cleanDuplicatePdfs pdfs db confirm moveOk).2
      = (if confirm then (filesToDelete pdfs db).filter moveOk else []) ∧
    (cleanOrphanedPdfs pdfs db confirm moveOk).1
      = (cleanOrphanedPdfs pdfs db confirm moveOk).2.length ∧
    (cleanOrphanedPdfs pdfs db confirm moveOk).2
      = (if confirm then (orphanedFiles pdfs db).filter moveOk else []) := by
  refine ⟨?_, ?_, fst_cleanDuplicatePdfs .., snd_cleanDuplicatePdfs ..,
    fst_cleanOrphanedPdfs .., snd_cleanOrphanedPdfs ..⟩
  · have h1 := snd_cleanDuplicatePdfs pdfs db false moveOk
    have h2 := fst_cleanDuplicatePdfs pdfs db false moveOk
    simp only [if_neg (by simp : ¬ (false : Bool) = true)] at h1
    rw [h1] at h2
    exact Prod.ext h2 h1
  · have h1 := snd_cleanOrphanedPdfs pdfs db false moveOk
    have h2 := fst_cleanOrphanedPdfs pdfs db false moveOk
    simp only [if_neg (by simp : ¬ (false : Bool) = true)] at h1
    rw [h1] at h2
    exact Prod.ext h2 h1

/-! ## Claim C10 -/

/-- C10.  Frame property of the Duplicate Resolver: a file whose
filename occurs in exactly one scanned copy is never marked and never
moved, whatever the index records for it; and only marked files are ever
moved. -/
theorem c10_singleton_frame (pdfs : List OnDiskFile)
    (db : List (String × List DbRec)) (f : OnDiskFile) (hf : f ∈ pdfs)
    (h1 : (groupOf pdfs f.filename).length = 1) :
    f ∉ filesToDelete pdfs db ∧
    (∀ (confirm : Bool) (moveOk : OnDiskFile → Bool),
      f ∉ (cleanDuplicatePdfs pdfs db confirm moveOk).2) ∧
    (∀ (confirm : Bool) (moveOk : OnDiskFile → Bool) (g : OnDiskFile),
      g ∈ (cleanDuplicatePdfs pdfs db confirm moveOk).2 →
        g ∈ filesToDelete pdfs db) := by
  have hnot : f ∉ filesToDelete pdfs db := by
    rw [mem_filesToDelete]
    rintro ⟨-, hlen, -⟩
    omega
  have hsub : ∀ (confirm : Bool) (moveOk : OnDiskFile → Bool) (g : OnDiskFile),
      g ∈ (cleanDuplicatePdfs pdfs db confirm moveOk).2 →
        g ∈ filesToDelete pdfs db := by
    intro confirm moveOk g hg
    rw [snd_cleanDuplicatePdfs] at hg
    rcases confirm <;> simp at hg
    exact hg.1
  exact ⟨hnot, fun confirm moveOk hmem => hnot (hsub confirm moveOk f hmem), hsub⟩

theorem c10_singleton_frame_witness :
    fileSolo ∈ [fileSolo] ∧
    (groupOf [fileSolo] fileSolo.filename).length = 1 ∧
    fileSolo ∉ filesToDelete [fileSolo] [] :=
  ⟨by decide, by decide,
    (c10_singleton_frame [fileSolo] [] fileSolo (by decide) (by decide)).1⟩

/-! ## Claim C7 -/

/-- After removing the marked files from the scan, a second grouping
marks nothing: surviving copies of an indexed duplicate all sit in
recorded folders, and unindexed duplicates have no surviving copies. -/
theorem no_second_marks (pdfs : List OnDiskFile) (db : List (String × List DbRec)) :
    filesToDelete (pdfs.filter fun f => decide (f ∉ filesToDelete pdfs db)) db = [] := by
  rw [List.eq_nil_iff_forall_not_mem]
  intro f hf
  rw [mem_filesToDelete] at hf
  obtain ⟨hfs, hlen, hrec⟩ := hf
  obtain ⟨hfp, hdec⟩ := List.mem_filter.mp hfs
  have hnd : f ∉ filesToDelete pdfs db := of_decide_eq_true hdec
  rw [groupOf_filter] at hlen
  have hlen0 : 1 < (groupOf pdfs f.filename).length :=
    lt_of_lt_of_le hlen (List.length_filter_le _ _)
  rcases hlook : List.lookup f.filename db with _ | recs
  · -- unindexed: every copy of the original group was marked
    have hempty : (groupOf pdfs f.filename).filter
        (fun g => decide (g ∉ filesToDelete pdfs db)) = [] := by
      rw [List.eq_nil_iff_forall_not_mem]
      intro g hgmem
      obtain ⟨hg1, hg2⟩ := List.mem_filter.mp hgmem
      obtain ⟨hgp, hgeq⟩ := (mem_groupOf ..).mp hg1
      have : g ∈ filesToDelete pdfs db := by
        rw [mem_filesToDelete]
        exact ⟨hgp, hgeq ▸ hlen0, fun recs h => by
          rw [hgeq, hlook] at h; cases h⟩
      exact of_decide_eq_true hg2 this
    rw [hempty] at hlen
    simp at hlen
  · -- indexed: f survived the first run, so its folder is recorded
    have hkept : folderOf f ∈ recs.map (·.folder) := by
      by_contra hm
      exact hnd ((mem_filesToDelete ..).mpr ⟨hfp, hlen0, fun recs' h' => by
        rw [hlook] at h'; injection h' with h'; subst h'; exact hm⟩)
    exact hrec recs hlook hkept

/-- C7.  Idempotence of duplicate resolution: after a confirmed first
run in which every marked file was successfully relocated, running the
Duplicate Resolver on the remaining files marks nothing and returns 0
moves. -/
theorem c7_duplicate_resolver_idempotent (pdfs : List OnDiskFile)
    (db : List (String × List DbRec)) (moveOk : OnDiskFile → Bool)
    (hmv : ∀ f, moveOk f = true) (surv : List OnDiskFile)
    (hsurv : surv = pdfs.filter
      (fun f => decide (f ∉ (cleanDuplicatePdfs pdfs db true moveOk).2)))
    (confirm2 : Bool) (moveOk2 : OnDiskFile → Bool) :
    filesToDelete surv db = [] ∧
    cleanDuplicatePdfs surv db confirm2 moveOk2 = (0, []) := by
  have hmoved : (cleanDuplicatePdfs pdfs db true moveOk).2 = filesToDelete pdfs db := by
    rw [snd_cleanDuplicatePdfs, if_pos rfl]
    exact List.filter_eq_self.mpr fun f _ => hmv f
  have hsurv' : surv = pdfs.filter (fun f => decide (f ∉ filesToDelete pdfs db)) := by
    rw [hsurv]; simp only [hmoved]
  have hnone : filesToDelete surv db = [] := by
    rw [hsurv']; exact no_second_marks pdfs db
  refine ⟨hnone, ?_⟩
  unfold cleanDuplicatePdfs
  rcases h1 : (dupNames surv).isEmpty
  · rw [if_neg (by simp [h1]), if_pos (by simp [hnone])]
  · rw [if_pos rfl]

theorem c7_duplicate_resolver_idempotent_witness :
    (∀ f : OnDiskFile, (fun _ : OnDiskFile => true) f = true) ∧
    (pdfsSample.filter
        (fun f => decide (f ∉ (cleanDuplicatePdfs pdfsSample dbSample true
          (fun _ => true)).2))
      = pdfsSample.filter
        (fun f => decide (f ∉ (cleanDuplicatePdfs pdfsSample dbSample true
          (fun _ => true)).2))) ∧
    (filesToDelete (pdfsSample.filter
        (fun f => decide (f ∉ (cleanDuplicatePdfs pdfsSample dbSample true
          (fun _ => true)).2))) dbSample = [] ∧
      cleanDuplicatePdfs (pdfsSample.filter
        (fun f => decide (f ∉ (cleanDuplicatePdfs pdfsSample dbSample true
          (fun _ => true)).2))) dbSample true (fun _ => true) = (0, [])) :=
  ⟨fun _ => rfl, rfl,
    c7_duplicate_resolver_idempotent pdfsSample dbSample (fun _ => true)
      (fun _ => rfl) _ rfl true (fun _ => true)⟩

/-! ## Supporting lemmas: the Database Index Builder -/

/-- The loop body acts on the accumulator exactly as the spec-side
per-row rule prescribes. -/
theorem dbStep_eq (acc : List (String × List DbRec) × List String)
    (row : AttachmentRow) :
    dbStep acc row = match specRec row with
      | none => acc
      | some (fn, r) => (addRec acc.1 fn r, acc.2 ++ [r.folder]) := by
  unfold dbStep specRec specIdentity
  rcases row.path with _ | p
  · rfl
  · by_cases hc : containsChar p ':'
    · simp only [if_pos hc]
      by_cases hsep : containsChar (afterFirstColon p) '/'
          || containsChar (afterFirstColon p) '\\' <;>
        simp [hsep]
    · simp [hc]

theorem specRec_none_of_bad (row : AttachmentRow)
    (h : row.path = none ∨ ∃ p, row.path = some p ∧ containsChar p ':' = false) :
    specRec row = none := by
  unfold specRec specIdentity
  rcases h with h | ⟨p, hp, hc⟩
  · rw [h]
  · rw [hp]; simp [hc]

theorem lookup_cons_self (k : String) (rs : List DbRec)
    (m : List (String × List DbRec)) : List.lookup k ((k, rs) :: m) = some rs := by
  simp [List.lookup]

theorem lookup_cons_ne (k : String) (rs : List DbRec)
    (m : List (String × List DbRec)) (fn' : String) (h : fn' ≠ k) :
    List.lookup fn' ((k, rs) :: m) = List.lookup fn' m := by
  simp [List.lookup, beq_eq_false_iff_ne.mpr h]

theorem recsFor_cons_ne (k : String) (rs : List DbRec)
    (m : List (String × List DbRec)) (fn' : String) (h : fn' ≠ k) :
    recsFor ((k, rs) :: m) fn' = recsFor m fn' := by
  simp [recsFor, lookup_cons_ne k rs m fn' h]

theorem lookup_addRec (m : List (String × List DbRec)) (fn : String) (r : DbRec) :
    ∀ fn', List.lookup fn' (addRec m fn r)
      = if fn' = fn then some (recsFor m fn' ++ [r]) else List.lookup fn' m := by
  induction m with
  | nil =>
    intro fn'
    by_cases h : fn' = fn
    · subst h
      simp [addRec, recsFor, lookup_cons_self]
    · have hbeq : (fn' == fn) = false := beq_eq_false_iff_ne.mpr h
      simp [addRec, List.lookup, hbeq, h]
  | cons kv m ih =>
    intro fn'
    obtain ⟨k, rs⟩ := kv
    by_cases hk : k = fn
    · subst hk
      rw [addRec, if_pos rfl]
      by_cases h : fn' = k
      · subst h
        rw [lookup_cons_self, if_pos rfl, recsFor, lookup_cons_self]
        rfl
      · rw [lookup_cons_ne _ _ _ _ h, if_neg h, lookup_cons_ne _ _ _ _ h]
    · rw [addRec, if_neg hk]
      by_cases h : fn' = k
      · subst h
        have hne : fn' ≠ fn := fun hc => hk (hc ▸ rfl)
        rw [lookup_cons_self, if_neg hne, lookup_cons_self]
      · rw [lookup_cons_ne _ _ _ _ h, ih fn', lookup_cons_ne _ _ _ _ h,
          recsFor_cons_ne _ _ _ _ h]

theorem recsFor_addRec (m : List (String × List DbRec)) (fn : String) (r : DbRec) :
    ∀ fn', recsFor (addRec m fn r) fn'
      = if fn' = fn then recsFor m fn' ++ [r] else recsFor m fn' := by
  intro fn'
  by_cases h : fn' = fn
  · rw [recsFor, lookup_addRec m fn r fn', if_pos h, if_pos h]
    rfl
  · rw [recsFor, lookup_addRec m fn r fn', if_neg h, if_neg h]
    rfl

/-- Folding the row loop appends exactly the spec-side contributions to
each filename's record list. -/
theorem mem_recsFor_foldl (rows : List AttachmentRow) :
    ∀ (acc : List (String × List DbRec) × List String) (fn : String) (r : DbRec),
      r ∈ recsFor (rows.foldl dbStep acc).1 fn ↔
        r ∈ recsFor acc.1 fn ∨ ∃ row ∈ rows, specRec row = some (fn, r) := by
  induction rows with
  | nil => intro acc fn r; simp
  | cons row rows ih =>
    intro acc fn r
    rw [List.foldl_cons, ih, dbStep_eq]
    rcases hsp : specRec row with _ | ⟨fn', r'⟩
    · simp only []
      constructor
      · rintro (h | h)
        · exact Or.inl h
        · exact Or.inr (by
            obtain ⟨row', hrow', hr'⟩ := h
            exact ⟨row', List.mem_cons_of_mem _ hrow', hr'⟩)
      · rintro (h | ⟨row', hrow', hr'⟩)
        · exact Or.inl h
        · rcases List.mem_cons.mp hrow' with rfl | hrow'
          · rw [hsp] at hr'; cases hr'
          · exact Or.inr ⟨row', hrow', hr'⟩
    · simp only [recsFor_addRec]
      by_cases hfn : fn = fn'
      · subst hfn
        rw [if_pos rfl]
        simp only [List.mem_append, List.mem_singleton]
        constructor
        · rintro ((h | rfl) | h)
          · exact Or.inl h
          · exact Or.inr ⟨row, List.mem_cons_self _ _, hsp⟩
          · obtain ⟨row', hrow', hr'⟩ := h
            exact Or.inr ⟨row', List.mem_cons_of_mem _ hrow', hr'⟩
        · rintro (h | ⟨row', hrow', hr'⟩)
          · exact Or.inl (Or.inl h)
          · rcases List.mem_cons.mp hrow' with rfl | hrow'
            · rw [hsp] at hr'
              injection hr' with hr'
              injection hr' with _ hr2
              exact Or.inl (Or.inr hr2.symm)
            · exact Or.inr ⟨row', hrow', hr'⟩
      · rw [if_neg hfn]
        constructor
        · rintro (h | ⟨row', hrow', hr'⟩)
          · exact Or.inl h
          · exact Or.inr ⟨row', List.mem_cons_of_mem _ hrow', hr'⟩
        · rintro (h | ⟨row', hrow', hr'⟩)
          · exact Or.inl h
          · rcases List.mem_cons.mp hrow' with rfl | hrow'
            · rw [hsp] at hr'
              injection hr' with hr'
              injection hr' with h1 _
              exact absurd h1.symm hfn
            · exact Or.inr ⟨row', hrow', hr'⟩

/-- Folding the row loop appends exactly the spec-side derived folders
to the valid-folder list. -/
theorem folders_foldl (rows : List AttachmentRow) :
    ∀ acc : List (String × List DbRec) × List String,
      (rows.foldl dbStep acc).2
        = acc.2 ++ rows.filterMap (fun row => (specRec row).map (fun p => p.2.folder)) := by
  induction rows with
  | nil => intro acc; simp
  | cons row rows ih =>
    intro acc
    rw [List.foldl_cons, ih, dbStep_eq]
    rcases hsp : specRec row with _ | ⟨fn', r'⟩ <;>
      simp [List.filterMap_cons, hsp]

/-- Bridge between the two spec-side views of a row. -/
theorem specIdentity_iff_specRec (row : AttachmentRow) (fol fn : String) :
    specIdentity row = some (fol, fn) ↔
      ∃ r : DbRec, specRec row = some (fn, r) ∧ r.folder = fol := by
  unfold specRec
  rcases hp : row.path with _ | p
  · unfold specIdentity
    rw [hp]
    simp
  · rcases hsi : specIdentity row with _ | ab
    · simp
    · obtain ⟨a, b⟩ := ab
      simp only [Option.some.injEq, Prod.mk.injEq]
      constructor
      · rintro ⟨rfl, rfl⟩
        exact ⟨⟨a, row.itemKey, p, row.itemID⟩, ⟨rfl, rfl⟩, rfl⟩
      · rintro ⟨r, ⟨h1, h2⟩, h3⟩
        subst h1
        subst h2
        exact ⟨h3, rfl⟩

/-! ## Claim C4 -/

/-- C4.  Database Index Builder: a folder is in the valid-folder set iff
some row derives it under the spec's parsing rule (split at the first
`:`; with a separator the first segment is the folder and the last the
filename, otherwise the item key and the whole remainder); the record
lists of the index contain exactly the rows' derived records; and a row
whose path is not a string or contains no `:` is silently skipped. -/
theorem c4_database_index_builder (rows : List AttachmentRow) :
    (∀ fol, fol ∈ (getDatabasePdfs rows).2 ↔
        ∃ row ∈ rows, ∃ fn, specIdentity row = some (fol, fn)) ∧
    (∀ fn r, r ∈ recsFor (getDatabasePdfs rows).1 fn ↔
        ∃ row ∈ rows, specRec row = some (fn, r)) ∧
    (∀ (row : AttachmentRow) (rows1 rows2 : List AttachmentRow),
        (row.path = none ∨ ∃ p, row.path = some p ∧ containsChar p ':' = false) →
        getDatabasePdfs (rows1 ++ row :: rows2) = getDatabasePdfs (rows1 ++ rows2)) := by
  refine ⟨?_, ?_, ?_⟩
  · intro fol
    unfold getDatabasePdfs
    rw [folders_foldl]
    simp only [List.nil_append, List.mem_filterMap, Option.map_eq_some']
    constructor
    · rintro ⟨row, hrow, p, hp, rfl⟩
      refine ⟨row, hrow, p.1, ?_⟩
      exact (specIdentity_iff_specRec row p.2.folder p.1).mpr ⟨p.2, hp, rfl⟩
    · rintro ⟨row, hrow, fn, hid⟩
      obtain ⟨r, hr, hfol⟩ := (specIdentity_iff_specRec row fol fn).mp hid
      exact ⟨row, hrow, (fn, r), hr, hfol⟩
  · intro fn r
    unfold getDatabasePdfs
    rw [mem_recsFor_foldl]
    simp [recsFor]
  · intro row rows1 rows2 hbad
    unfold getDatabasePdfs
    rw [List.foldl_append, List.foldl_append, List.foldl_cons,
      dbStep_eq, specRec_none_of_bad row hbad]

theorem c4_database_index_builder_witness :
    ((⟨2, none, some "no-colon-path", "K2"⟩ : AttachmentRow).path = none ∨
      ∃ p, (⟨2, none, some "no-colon-path", "K2"⟩ : AttachmentRow).path = some p ∧
        containsChar p ':' = false) ∧
    getDatabasePdfs ([⟨1, none, some "storage:AB12CD/a.pdf", "K1"⟩] ++
        (⟨2, none, some "no-colon-path", "K2"⟩ : AttachmentRow) :: [⟨3, none, none, "K3"⟩])
      = getDatabasePdfs ([⟨1, none, some "storage:AB12CD/a.pdf", "K1"⟩] ++
        [⟨3, none, none, "K3"⟩]) :=
  ⟨Or.inr ⟨"no-colon-path", rfl, by decide⟩,
    (c4_database_index_builder []).2.2 ⟨2, none, some "no-colon-path", "K2"⟩
      [⟨1, none, some "storage:AB12CD/a.pdf", "K1"⟩] [⟨3, none, none, "K3"⟩]
      (Or.inr ⟨"no-colon-path", rfl, by decide⟩)⟩

/-! ## Supporting lemmas: decimal representations and `findDest` -/

theorem toDigitsCore_eq_decChars :
    ∀ (fuel n : Nat) (ds : List Char), n < fuel →
      Nat.toDigitsCore 10 fuel n ds = decChars n ++ ds := by
  intro fuel
  induction fuel with
  | zero => intro n ds h; omega
  | succ f ih =>
    intro n ds h
    by_cases hn : n < 10
    · have h0 : n / 10 = 0 := Nat.div_eq_of_lt hn
      simp only [Nat.toDigitsCore]
      rw [if_pos h0, decChars, if_pos hn, Nat.mod_eq_of_lt hn]
      rfl
    · have h10 : 10 ≤ n := Nat.not_lt.mp hn
      have hpos : 1 ≤ n / 10 := (Nat.le_div_iff_mul_le (by omega)).mpr (by omega)
      have h0 : ¬ n / 10 = 0 := by omega
      have hlt : n / 10 < f :=
        lt_of_lt_of_le (Nat.div_lt_self (by omega) (by omega)) (by omega)
      simp only [Nat.toDigitsCore]
      rw [if_neg h0, ih (n / 10) (Nat.digitChar (n % 10) :: ds) hlt]
      conv_rhs => rw [decChars]
      rw [if_neg hn, List.append_assoc]
      rfl

theorem repr_eq_decChars (n : Nat) : Nat.repr n = (decChars n).asString := by
  unfold Nat.repr Nat.toDigits
  rw [toDigitsCore_eq_decChars (n + 1) n [] (Nat.lt_succ_self n), List.append_nil]

theorem dval_digitChar (d : Nat) (h : d < 10) : dval (Nat.digitChar d) = d := by
  interval_cases d <;> rfl

theorem evalD_append_singleton (l : List Char) (c : Char) :
    evalD (l ++ [c]) = evalD l * 10 + dval c := by
  unfold evalD
  rw [List.foldl_append]
  rfl

theorem evalD_decChars (n : Nat) : evalD (decChars n) = n := by
  induction n using Nat.strong_induction_on with
  | _ n ih =>
    by_cases hn : n < 10
    · rw [decChars, if_pos hn]
      unfold evalD
      simp [List.foldl, dval_digitChar n hn]
    · rw [decChars, if_neg hn, evalD_append_singleton,
        ih (n / 10) (Nat.div_lt_self (by omega) (by omega)),
        dval_digitChar (n % 10) (Nat.mod_lt n (by omega))]
      omega

theorem decChars_injective (a b : Nat) (h : decChars a = decChars b) : a = b := by
  have h2 := congrArg evalD h
  rwa [evalD_decChars, evalD_decChars] at h2

theorem nat_repr_data_injective (a b : Nat)
    (h : (Nat.repr a).data = (Nat.repr b).data) : a = b := by
  apply decChars_injective
  rw [repr_eq_decChars, repr_eq_decChars] at h
  exact h

theorem nextName_injective (dest : String) (k1 k2 : Nat)
    (h : nextName dest k1 = nextName dest k2) : k1 = k2 := by
  unfold nextName at h
  have h1 := congrArg String.data h
  simp only [String.data_append] at h1
  have h2 := List.append_cancel_right h1
  have h3 := List.append_cancel_left h2
  exact nat_repr_data_injective k1 k2 h3

theorem exists_fresh_candidate (existing : List String) (dest : String) (k : Nat) :
    ∃ j, j < existing.length + 1 ∧ nextName dest (k + j) ∉ existing := by
  by_contra hc
  push_neg at hc
  have hsub : ((List.range (existing.length + 1)).map
      (fun j => nextName dest (k + j))) ⊆ existing := by
    intro x hx
    obtain ⟨j, hj, rfl⟩ := List.mem_map.mp hx
    exact hc j (List.mem_range.mp hj)
  have hnd : ((List.range (existing.length + 1)).map
      (fun j => nextName dest (k + j))).Nodup := by
    refine List.Nodup.map ?_ (List.nodup_range _)
    intro j1 j2 hj
    have := nextName_injective dest (k + j1) (k + j2) hj
    omega
  have hlen := List.Subperm.length_le (List.subperm_of_subset hnd hsub)
  simp only [List.length_map, List.length_range] at hlen
  omega

theorem findDestAux_not_mem (existing : List String) (dest : String) :
    ∀ (fuel k : Nat), (∃ j, j < fuel ∧ nextName dest (k + j) ∉ existing) →
      findDestAux existing dest fuel k ∉ existing := by
  intro fuel
  induction fuel with
  | zero => rintro k ⟨j, hj, -⟩; omega
  | succ f ih =>
    rintro k ⟨j, hj, hfree⟩
    rw [findDestAux]
    by_cases hmem : nextName dest k ∈ existing
    · rw [if_pos hmem]
      apply ih (k + 1)
      rcases j with _ | j'
      · rw [Nat.add_zero] at hfree
        exact absurd hmem hfree
      · exact ⟨j', by omega, by
          rw [show k + 1 + j' = k + (j' + 1) by omega]; exact hfree⟩
    · rw [if_neg hmem]
      exact hmem

theorem findDest_not_mem (existing : List String) (dest : String) :
    findDest existing dest ∉ existing := by
  rw [findDest]
  by_cases h : dest ∈ existing
  · rw [if_pos h]
    exact findDestAux_not_mem existing dest (existing.length + 1) 1
      (exists_fresh_candidate existing dest 1)
  · rw [if_neg h]
    exact h

theorem findDestAux_shape (existing : List String) (dest : String) :
    ∀ fuel k, ∃ k', k ≤ k' ∧ findDestAux existing dest fuel k = nextName dest k' := by
  intro fuel
  induction fuel with
  | zero => intro k; exact ⟨k, Nat.le_refl k, rfl⟩
  | succ f ih =>
    intro k
    rw [findDestAux]
    by_cases hmem : nextName dest k ∈ existing
    · rw [if_pos hmem]
      obtain ⟨k', hk', heq⟩ := ih (k + 1)
      exact ⟨k', by omega, heq⟩
    · rw [if_neg hmem]
      exact ⟨k, Nat.le_refl k, rfl⟩

/-! ## Claim C5 -/

/-- C5.  Collision-safe backup naming: duplicates are renamed
`dup_<folder>_<filename>` and orphans `orphan_<folder>_<filename>`; the
chosen destination never coincides with a name already in the backup
directory; an unused constructed name is used as-is; a used one gets a
numeric suffix `_k` (`k ≥ 1`) inserted before the extension; and a
second file with the same constructed name never receives the name the
first relocation produced. -/
theorem c5_collision_safe_naming (existing : List String) (f g : OnDiskFile) :
    findDest existing (dupDestName f) ∉ existing ∧
    findDest existing (orphanDestName g) ∉ existing ∧
    (dupDestName f ∉ existing →
      findDest existing (dupDestName f) = dupDestName f) ∧
    (orphanDestName g ∉ existing →
      findDest existing (orphanDestName g) = orphanDestName g) ∧
    (dupDestName f ∈ existing →
      ∃ k, 1 ≤ k ∧
        findDest existing (dupDestName f) = nextName (dupDestName f) k) ∧
    (orphanDestName g ∈ existing →
      ∃ k, 1 ≤ k ∧
        findDest existing (orphanDestName g) = nextName (orphanDestName g) k) ∧
    findDest (findDest existing (dupDestName f) :: existing) (dupDestName f)
      ≠ findDest existing (dupDestName f) := by
  refine ⟨findDest_not_mem existing (dupDestName f),
    findDest_not_mem existing (orphanDestName g), ?_, ?_, ?_, ?_, ?_⟩
  · intro h; rw [findDest, if_neg h]
  · intro h; rw [findDest, if_neg h]
  · intro h
    rw [findDest, if_pos h]
    exact findDestAux_shape existing (dupDestName f) (existing.length + 1) 1
  · intro h
    rw [findDest, if_pos h]
    exact findDestAux_shape existing (orphanDestName g) (existing.length + 1) 1
  · intro hc
    have hnm := findDest_not_mem
      (findDest existing (dupDestName f) :: existing) (dupDestName f)
    rw [hc] at hnm
    exact hnm (List.mem_cons_self _ _)

theorem c5_collision_safe_naming_witness :
    dupDestName fileXY ∉ ([] : List String) ∧
    findDest [] (dupDestName fileXY) = dupDestName fileXY ∧
    dupDestName fileXY ∈ [dupDestName fileXY] ∧
    (∃ k, 1 ≤ k ∧ findDest [dupDestName fileXY] (dupDestName fileXY)
      = nextName (dupDestName fileXY) k) ∧
    orphanDestName fileSolo ∉ ([] : List String) ∧
    findDest [] (orphanDestName fileSolo) = orphanDestName fileSolo :=
  ⟨by decide,
    (c5_collision_safe_naming [] fileXY fileSolo).2.2.1 (by decide),
    by decide,
    (c5_collision_safe_naming [dupDestName fileXY] fileXY fileSolo).2.2.2.2.1
      (by decide),
    by decide,
    (c5_collision_safe_naming [] fileXY fileSolo).2.2.2.1 (by decide)⟩

/-! ## Supporting lemmas: the folder pruner -/

mutual
/-- A pass on one entry: if it deleted nothing it returned the entry
unchanged with zero counts, and deletions strictly shrink the subtree. -/
theorem pruneEntry_spec (valid : List String) : (t : FsTree) →
    ((pruneEntry valid t).2.1 = false → pruneEntry valid t = (some t, false, 0, 0)) ∧
    sizeO (pruneEntry valid t).1 ≤ sizeT t ∧
    ((pruneEntry valid t).2.1 = true → sizeO (pruneEntry valid t).1 < sizeT t)
  | .file n => by
    refine ⟨fun _ => rfl, Nat.le_refl _, fun h => nomatch h⟩
  | .dir n es r => by
    cases r with
    | false =>
      have hfix : pruneEntry valid (.dir n es false)
          = (some (.dir n es false), false, 0, 0) := rfl
      rw [hfix]
      exact ⟨fun _ => rfl, Nat.le_refl _, fun h => nomatch h⟩
    | true =>
      have ih := pruneEntries_spec valid es
      rcases hpr : pruneEntries valid es with ⟨es', d, ec, ic⟩
      rw [hpr] at ih
      dsimp only at ih
      have hdel : ∀ ec' ic' : Nat,
          (((none : Option FsTree), true, ec', ic').2.1 = false →
            ((none : Option FsTree), true, ec', ic')
              = (some (FsTree.dir n es true), false, 0, 0)) ∧
          sizeO (none : Option FsTree) ≤ sizeT (FsTree.dir n es true) ∧
          (((none : Option FsTree), true, ec', ic').2.1 = true →
            sizeO (none : Option FsTree) < sizeT (FsTree.dir n es true)) := by
        intro ec' ic'
        refine ⟨?_, ?_, ?_⟩
        · intro h
          exact nomatch h
        · exact Nat.zero_le _
        · intro h
          simp only [sizeO, sizeT]
          omega
      have hkeep :
          ((some (FsTree.dir n es' true), d, ec, ic).2.1 = false →
            ((some (FsTree.dir n es' true) : Option FsTree), d, ec, ic)
              = (some (FsTree.dir n es true), false, 0, 0)) ∧
          sizeO (some (FsTree.dir n es' true)) ≤ sizeT (FsTree.dir n es true) ∧
          ((some (FsTree.dir n es' true), d, ec, ic).2.1 = true →
            sizeO (some (FsTree.dir n es' true)) < sizeT (FsTree.dir n es true)) := by
        refine ⟨fun h => ?_, ?_, fun h => ?_⟩
        · have h2 := ih.1 h
          simp only [Prod.mk.injEq] at h2
          obtain ⟨he, hd2, hec, hic⟩ := h2
          subst he; subst hec; subst hic
          rw [hd2]
        · have h2 := ih.2.1
          simp only [sizeO, sizeT]
          omega
        · have h2 := ih.2.2 h
          simp only [sizeO, sizeT]
          omega
      simp only [pruneEntry, if_true, hpr]
      by_cases h1 : isFolderEmpty (FsTree.dir n es' true) = true
      · rw [if_pos h1]
        by_cases h2 : isNilE es' = true
        · rw [if_pos h2]
          exact hdel _ _
        · rw [if_neg h2]
          exact hkeep
      · rw [if_neg h1]
        by_cases h3 : (!hasPdfFiles (FsTree.dir n es' true) && !valid.contains n) = true
        · rw [if_pos h3]
          exact hdel _ _
        · rw [if_neg h3]
          exact hkeep
/-- A pass on a sibling list: same specification. -/
theorem pruneEntries_spec (valid : List String) : (es : EntryList) →
    ((pruneEntries valid es).2.1 = false → pruneEntries valid es = (es, false, 0, 0)) ∧
    sizeE (pruneEntries valid es).1 ≤ sizeE es ∧
    ((pruneEntries valid es).2.1 = true → sizeE (pruneEntries valid es).1 < sizeE es)
  | .nil => by
    refine ⟨fun _ => rfl, Nat.le_refl _, fun h => nomatch h⟩
  | .cons t ts => by
    have ih1 := pruneEntry_spec valid t
    have ih2 := pruneEntries_spec valid ts
    rcases ha : pruneEntry valid t with ⟨o, d1, e1, i1⟩
    rcases hb : pruneEntries valid ts with ⟨ts', d2, e2, i2⟩
    rw [ha] at ih1
    rw [hb] at ih2
    dsimp only at ih1 ih2
    simp only [pruneEntries, ha, hb]
    refine ⟨fun h => ?_, ?_, fun h => ?_⟩
    · simp only [Bool.or_eq_false_iff] at h
      have h1 := ih1.1 h.1
      have h2 := ih2.1 h.2
      simp only [Prod.mk.injEq] at h1 h2
      obtain ⟨ho, -, he1, hi1⟩ := h1
      obtain ⟨hts, -, he2, hi2⟩ := h2
      subst ho; subst hts; subst he1; subst hi1; subst he2; subst hi2
      simp [consOpt, h.1, h.2]
    · have hs1 := ih1.2.1
      have hs2 := ih2.2.1
      cases o with
      | none =>
        simp only [consOpt, sizeE]
        simp only [sizeO] at hs1
        omega
      | some u =>
        simp only [consOpt, sizeE]
        simp only [sizeO] at hs1
        omega
    · simp only [Bool.or_eq_true] at h
      rcases h with h | h
      · have hs1 := ih1.2.2 h
        have hs2 := ih2.2.1
        cases o with
        | none =>
          simp only [consOpt, sizeE]
          simp only [sizeO] at hs1
          omega
        | some u =>
          simp only [consOpt, sizeE]
          simp only [sizeO] at hs1
          omega
      · have hs1 := ih1.2.1
        have hs2 := ih2.2.2 h
        cases o with
        | none =>
          simp only [consOpt, sizeE]
          simp only [sizeO] at hs1
          omega
        | some u =>
          simp only [consOpt, sizeE]
          simp only [sizeO] at hs1
          omega
end

mutual
/-- If the subtree semantically holds a PDF and the walk succeeds, the
walked file list contains a PDF name. -/
theorem subtreeHasPdf_walk : (t : FsTree) → subtreeHasPdf t = true →
    ∀ fs, walkFiles t = .ok fs → fs.any isPdfName = true
  | .file n => by
    intro h fs hw
    rw [walkFiles] at hw
    injection hw with hw
    subst hw
    simpa [List.any] using h
  | .dir n es r => by
    intro h fs hw
    cases r with
    | false => rw [walkFiles] at hw; cases hw
    | true =>
      rw [walkFiles, if_pos rfl] at hw
      exact entriesHavePdf_walk es h fs hw
/-- Entry-list version of `subtreeHasPdf_walk`. -/
theorem entriesHavePdf_walk : (es : EntryList) → entriesHavePdf es = true →
    ∀ fs, walkEntries es = .ok fs → fs.any isPdfName = true
  | .nil => by
    intro h fs hw
    exact nomatch h
  | .cons t ts => by
    intro h fs hw
    rw [walkEntries] at hw
    rcases hwt : walkFiles t with e | a <;> rw [hwt] at hw
    · cases hw
    · rcases hws : walkEntries ts with e | b <;> rw [hws] at hw
      · cases hw
      · injection hw with hw
        subst hw
        rw [List.any_append, Bool.or_eq_true]
        rw [entriesHavePdf, Bool.or_eq_true] at h
        rcases h with h1 | h2
        · exact Or.inl (subtreeHasPdf_walk t h1 a hwt)
        · exact Or.inr (entriesHavePdf_walk ts h2 b hws)
end

/-- Semantic PDF containment implies `has_pdf_files` reports `true`
(either the walk succeeds and finds the PDF, or it raises). -/
theorem subtreeHasPdf_hasPdfFiles (t : FsTree) (h : subtreeHasPdf t = true) :
    hasPdfFiles t = true := by
  unfold hasPdfFiles
  rcases hw : walkFiles t with e | fs
  · rfl
  · exact subtreeHasPdf_walk t h fs hw

mutual
/-- A pass never deletes an entry whose subtree holds a PDF, and the
surviving entry still holds it. -/
theorem pruneEntry_preserves_pdf (valid : List String) : (t : FsTree) →
    subtreeHasPdf t = true →
      ∃ t', (pruneEntry valid t).1 = some t' ∧ subtreeHasPdf t' = true
  | .file n => fun h => ⟨.file n, rfl, h⟩
  | .dir n es r => by
    intro h
    cases r with
    | false => exact ⟨.dir n es false, rfl, h⟩
    | true =>
      rw [subtreeHasPdf] at h
      have ihE := pruneEntries_preserve_pdf valid es h
      rcases hpr : pruneEntries valid es with ⟨es', d, ec, ic⟩
      rw [hpr] at ihE
      have hsub : subtreeHasPdf (FsTree.dir n es' true) = true := by
        rw [subtreeHasPdf]; exact ihE
      simp only [pruneEntry, if_true, hpr]
      by_cases h1 : isFolderEmpty (FsTree.dir n es' true) = true
      · rw [if_pos h1]
        cases hes : es' with
        | nil =>
          rw [hes] at ihE
          exact nomatch ihE
        | cons t0 ts0 =>
          subst hes
          rw [if_neg (by rw [isNilE]; exact fun hc => nomatch hc)]
          exact ⟨FsTree.dir n (.cons t0 ts0) true, rfl, hsub⟩
      · rw [if_neg h1]
        have hpdf := subtreeHasPdf_hasPdfFiles (FsTree.dir n es' true) hsub
        rw [hpdf]
        rw [if_neg (by simp)]
        exact ⟨FsTree.dir n es' true, rfl, hsub⟩
/-- Entry-list version of `pruneEntry_preserves_pdf`. -/
theorem pruneEntries_preserve_pdf (valid : List String) : (es : EntryList) →
    entriesHavePdf es = true → entriesHavePdf (pruneEntries valid es).1 = true
  | .nil => fun h => nomatch h
  | .cons t ts => by
    intro h
    rw [entriesHavePdf, Bool.or_eq_true] at h
    rcases ha : pruneEntry valid t with ⟨o, d1, e1, i1⟩
    rcases hb : pruneEntries valid ts with ⟨ts', d2, e2, i2⟩
    simp only [pruneEntries, ha, hb]
    rcases h with h1 | h2
    · obtain ⟨t', ht', hp⟩ := pruneEntry_preserves_pdf valid t h1
      rw [ha] at ht'
      dsimp only at ht' ⊢
      subst ht'
      rw [consOpt, entriesHavePdf, hp, Bool.true_or]
    · have ihE := pruneEntries_preserve_pdf valid ts h2
      rw [hb] at ihE
      dsimp only at ihE ⊢
      cases o with
      | none =>
        rw [consOpt]
        exact ihE
      | some u =>
        rw [consOpt, entriesHavePdf, ihE, Bool.or_true]
end

/-- The pruner loop preserves semantic PDF containment of the whole
storage tree. -/
theorem cleanLoop_preserves_pdf (valid : List String) :
    ∀ (fuel : Nat) (es : EntryList), entriesHavePdf es = true →
      entriesHavePdf (cleanLoop valid fuel es).1 = true := by
  intro fuel
  induction fuel with
  | zero => intro es h; exact h
  | succ f ih =>
    intro es h
    simp only [cleanLoop]
    rcases hd : (pruneEntries valid es).2.1
    · simp only [hd, Bool.false_eq_true, if_false]
      exact h
    · simp only [hd, if_true]
      exact ih _ (pruneEntries_preserve_pdf valid es h)

theorem cleanLoop_fuel_irrel (valid : List String) :
    ∀ (f1 f2 : Nat) (es : EntryList), sizeE es < f1 → sizeE es < f2 →
      cleanLoop valid f1 es = cleanLoop valid f2 es := by
  intro f1
  induction f1 with
  | zero => intro f2 es h1 h2; omega
  | succ a ih =>
    intro f2 es h1 h2
    rcases f2 with _ | b
    · omega
    · simp only [cleanLoop]
      rcases hd : (pruneEntries valid es).2.1
      · simp [hd]
      · have hlt := (pruneEntries_spec valid es).2.2 hd
        have heq := ih b (pruneEntries valid es).1 (by omega) (by omega)
        simp [hd, heq]

theorem cleanLoop_fixed (valid : List String) :
    ∀ (fuel : Nat) (es : EntryList), sizeE es < fuel →
      pruneEntries valid (cleanLoop valid fuel es).1
        = ((cleanLoop valid fuel es).1, false, 0, 0) := by
  intro fuel
  induction fuel with
  | zero => intro es h; omega
  | succ f ih =>
    intro es h
    simp only [cleanLoop]
    rcases hd : (pruneEntries valid es).2.1
    · simp only [hd, Bool.false_eq_true, if_false]
      exact (pruneEntries_spec valid es).1 hd
    · have hlt := (pruneEntries_spec valid es).2.2 hd
      have := ih (pruneEntries valid es).1 (by omega)
      simpa [hd] using this

/-! ## Claim C8 -/

/-- C8.  Folder Pruner fixed point and termination: the repeat loop
stops exactly when a pass deletes nothing (`cleanLoop` returns as soon
as the pass flag is false, and `sizeE es + 1` passes always suffice, so
any larger fuel gives the same result — the loop terminates); and
re-running a pass on the final state deletes nothing and leaves the
state unchanged with zero counts. -/
theorem c8_folder_pruner_fixed_point (valid : List String) (es : EntryList) :
    pruneEntries valid (cleanEmptyFolders valid es).1
        = ((cleanEmptyFolders valid es).1, false, 0, 0) ∧
    (∀ fuel, sizeE es < fuel → cleanLoop valid fuel es = cleanEmptyFolders valid es) := by
  constructor
  · exact cleanLoop_fixed valid (sizeE es + 1) es (Nat.lt_succ_self _)
  · intro fuel h
    exact cleanLoop_fuel_irrel valid fuel (sizeE es + 1) es h (Nat.lt_succ_self _)

theorem c8_folder_pruner_fixed_point_witness :
    sizeE (EntryList.cons (FsTree.dir "AAAA1111" .nil true) .nil) < 5 ∧
    cleanLoop [] 5 (EntryList.cons (FsTree.dir "AAAA1111" .nil true) .nil)
      = cleanEmptyFolders [] (EntryList.cons (FsTree.dir "AAAA1111" .nil true) .nil) :=
  ⟨by decide,
    (c8_folder_pruner_fixed_point [] (EntryList.cons (FsTree.dir "AAAA1111" .nil true) .nil)).2
      5 (by decide)⟩

/-! ## Claim C2 -/

/-- The C2 claim as stated is false on the code: the Folder Pruner does
delete a folder whose name is in ValidFolderSet when the folder is
empty — the `is_folder_empty` branch never consults `db_folders`.  Here
`AAAA1111` is in the valid-folder set, its folder is empty, and one run
of the pruner removes it (final state `.nil`, one empty-folder
deletion). -/
theorem c2_valid_name_counterexample :
    List.contains ["AAAA1111"] "AAAA1111" = true ∧
    cleanEmptyFolders ["AAAA1111"] (.cons (.dir "AAAA1111" .nil true) .nil)
      = (.nil, 1, 0) :=
  ⟨by decide, rfl⟩

/-- C2 (amended).  The Folder Pruner never deletes a folder containing
a PDF anywhere in its subtree (and the whole loop preserves the PDFs of
the storage tree); a folder whose name is in ValidFolderSet is never
deleted by the invalid-folder (no-PDF) rule — if it is deleted at all,
it was deleted by the empty-folder rule, with its entry list empty
after its own subfolders were pruned. -/
theorem c2_folder_pruner_preservation (valid : List String) (t : FsTree)
    (n : String) (es : EntryList) (r : Bool) :
    (subtreeHasPdf t = true →
      ∃ t', (pruneEntry valid t).1 = some t' ∧ subtreeHasPdf t' = true) ∧
    (valid.contains n = true → (pruneEntry valid (.dir n es r)).1 = none →
      r = true ∧ (pruneEntries valid es).1 = .nil ∧
      pruneEntry valid (.dir n es r)
        = (none, true, (pruneEntries valid es).2.2.1 + 1,
            (pruneEntries valid es).2.2.2)) ∧
    (∀ fuel, entriesHavePdf es = true →
      entriesHavePdf (cleanLoop valid fuel es).1 = true) := by
  refine ⟨pruneEntry_preserves_pdf valid t, ?_, fun fuel h => cleanLoop_preserves_pdf valid fuel es h⟩
  intro hv hdel
  cases r with
  | false =>
    have : (pruneEntry valid (.dir n es false)).1 = some (.dir n es false) := rfl
    rw [this] at hdel
    cases hdel
  | true =>
    rcases hpr : pruneEntries valid es with ⟨es', d, ec, ic⟩
    simp only [pruneEntry, if_true, hpr] at hdel ⊢
    by_cases h1 : isFolderEmpty (FsTree.dir n es' true) = true
    · rw [if_pos h1] at hdel ⊢
      cases hes : es' with
      | nil =>
        subst hes
        rw [if_pos (show isNilE EntryList.nil = true from rfl)]
        exact ⟨trivial, rfl, rfl⟩
      | cons t0 ts0 =>
        subst hes
        rw [if_neg (by rw [isNilE]; exact fun hc => nomatch hc)] at hdel
        cases hdel
    · rw [if_neg h1] at hdel ⊢
      rw [hv] at hdel ⊢
      rw [if_neg (by simp)] at hdel
      cases hdel

theorem c2_folder_pruner_preservation_witness :
    subtreeHasPdf (FsTree.dir "AB12CD" (.cons (.file "a.pdf") .nil) true) = true ∧
    (∃ t', (pruneEntry [] (FsTree.dir "AB12CD" (.cons (.file "a.pdf") .nil) true)).1
        = some t' ∧ subtreeHasPdf t' = true) ∧
    List.contains ["AAAA1111"] "AAAA1111" = true ∧
    (pruneEntry ["AAAA1111"] (FsTree.dir "AAAA1111" .nil true)).1 = none ∧
    (true = true ∧ (pruneEntries ["AAAA1111"] EntryList.nil).1 = .nil ∧
      pruneEntry ["AAAA1111"] (FsTree.dir "AAAA1111" .nil true)
        = (none, true, (pruneEntries ["AAAA1111"] EntryList.nil).2.2.1 + 1,
            (pruneEntries ["AAAA1111"] EntryList.nil).2.2.2)) :=
  ⟨by decide,
    (c2_folder_pruner_preservation []
      (FsTree.dir "AB12CD" (.cons (.file "a.pdf") .nil) true) "x" .nil true).1 (by decide),
    by decide,
    rfl,
    (c2_folder_pruner_preservation ["AAAA1111"] (.file "x") "AAAA1111" .nil true).2.1
      (by decide) rfl⟩

/-! ## Claim C3 -/

/-- C3 fails on the code: a folder whose only entry is a system
artifact file is classified as empty by `is_folder_empty`, but the
deletion uses `os.rmdir`, which raises on a directory that still
physically contains the artifact file; the per-folder handler catches
the error and the folder survives every pass undeleted (final state
unchanged, zero deletions of either kind), contradicting the claimed
outright deletion. -/
theorem c3_artifact_only_folder_stuck :
    isFolderEmpty (FsTree.dir "EMPTY1" (.cons (.file ".DS_Store") .nil) true) = true ∧
    cleanEmptyFolders []
        (.cons (.dir "EMPTY1" (.cons (.file ".DS_Store") .nil) true) .nil)
      = (.cons (.dir "EMPTY1" (.cons (.file ".DS_Store") .nil) true) .nil, 0, 0) :=
  ⟨by decide, rfl⟩

/-! ## Claim C9 -/

/-- C9.  Conservative inspection errors: a directory whose listing
raises is reported non-empty by `is_folder_empty`; a subtree whose walk
raises is reported PDF-containing by `has_pdf_files`; consequently a
pass of the Folder Pruner leaves an unreadable directory untouched. -/
theorem c9_uninspectable_folder_preserved (valid : List String) (n : String)
    (es : EntryList) :
    isFolderEmpty (FsTree.dir n es false) = false ∧
    hasPdfFiles (FsTree.dir n es false) = true ∧
    pruneEntry valid (FsTree.dir n es false)
      = (some (.dir n es false), false, 0, 0) ∧
    (∀ t : FsTree, walkFiles t = .error () → hasPdfFiles t = true) := by
  refine ⟨rfl, rfl, rfl, ?_⟩
  intro t h
  unfold hasPdfFiles
  rw [h]

theorem c9_uninspectable_folder_preserved_witness :
    walkFiles (FsTree.dir "XX99YY" .nil false) = .error () ∧
    hasPdfFiles (FsTree.dir "XX99YY" .nil false) = true :=
  ⟨rfl, (c9_uninspectable_folder_preserved [] "XX99YY" .nil).2.2.2
    (FsTree.dir "XX99YY" .nil false) rfl⟩

end ZoteroCleaner
